import Mathlib

/-!
Shallow embedding of the `bevy_upward` local-up alignment plugin (src/lib.rs)
in exact real arithmetic.

The repository code consists of two per-tick systems over per-entity data:
`align_up` (the alignment engine) and `sync_old_up` (the delayed-up tracker),
chained in that order.  Entity attributes are modelled as a record with
optional fields; the external math primitives from `bevy_math`/`glam`
(`Quat::from_rotation_arc`, `Quat::mul_vec3`, `Quat::slerp`,
`Quat::angle_between`, `Vec3::try_normalize`, `Vec3::any_orthonormal_vector`,
`Quat::from_mat3`) are modelled over `ℝ` by their exact mathematical
semantics: floating-point epsilon thresholds collapse to exact comparisons.
-/

noncomputable section

open scoped Classical

namespace BevyUpward

/-- 3-component real vector, modelling `bevy_math::Vec3` (and the payload of
`Dir3`, whose unit-length invariant appears as a hypothesis in theorems). -/
@[ext]
structure Vec3 where
  x : ℝ
  y : ℝ
  z : ℝ

instance : Zero Vec3 := ⟨⟨0, 0, 0⟩⟩

instance : Add Vec3 := ⟨fun a b => ⟨a.x + b.x, a.y + b.y, a.z + b.z⟩⟩

instance : Neg Vec3 := ⟨fun v => ⟨-v.x, -v.y, -v.z⟩⟩

instance : SMul ℝ Vec3 := ⟨fun c v => ⟨c * v.x, c * v.y, c * v.z⟩⟩

@[simp] theorem Vec3.zero_x : (0 : Vec3).x = 0 := rfl

@[simp] theorem Vec3.zero_y : (0 : Vec3).y = 0 := rfl

@[simp] theorem Vec3.zero_z : (0 : Vec3).z = 0 := rfl

@[simp] theorem Vec3.vadd_x (a b : Vec3) : (a + b).x = a.x + b.x := rfl

@[simp] theorem Vec3.vadd_y (a b : Vec3) : (a + b).y = a.y + b.y := rfl

@[simp] theorem Vec3.vadd_z (a b : Vec3) : (a + b).z = a.z + b.z := rfl

@[simp] theorem Vec3.vneg_x (v : Vec3) : (-v).x = -v.x := rfl

@[simp] theorem Vec3.vneg_y (v : Vec3) : (-v).y = -v.y := rfl

@[simp] theorem Vec3.vneg_z (v : Vec3) : (-v).z = -v.z := rfl

@[simp] theorem Vec3.vsmul_x (c : ℝ) (v : Vec3) : (c • v).x = c * v.x := rfl

@[simp] theorem Vec3.vsmul_y (c : ℝ) (v : Vec3) : (c • v).y = c * v.y := rfl

@[simp] theorem Vec3.vsmul_z (c : ℝ) (v : Vec3) : (c • v).z = c * v.z := rfl

/-- `Vec3::dot`. -/
def dot3 (a b : Vec3) : ℝ := a.x * b.x + a.y * b.y + a.z * b.z

/-- `Vec3::cross`. -/
def cross (a b : Vec3) : Vec3 :=
  ⟨a.y * b.z - a.z * b.y, a.z * b.x - a.x * b.z, a.x * b.y - a.y * b.x⟩

/-- `Vec3::length_squared`. -/
def normSqV (v : Vec3) : ℝ := dot3 v v

/-- `Vec3::length`. -/
def lengthV (v : Vec3) : ℝ := Real.sqrt (normSqV v)

/-- Models `Vec3::try_normalize`: in exact arithmetic the reciprocal length is
finite and positive exactly when the vector is nonzero. -/
def tryNormalize (v : Vec3) : Option Vec3 :=
  if v = 0 then none else some ((1 / lengthV v) • v)

/-- Models `f32::signum` (which returns `1.0` for `+0.0`). -/
def signum (x : ℝ) : ℝ := if x < 0 then -1 else 1

/-- Models `Vec3::any_orthonormal_vector` (the Pixar orthonormal-basis
construction used by glam); callers guarantee the input is unit length. -/
def anyOrthonormalVector (v : Vec3) : Vec3 :=
  ⟨v.x * v.y * (-1 / (signum v.z + v.z)),
   signum v.z + v.y * v.y * (-1 / (signum v.z + v.z)),
   -v.y⟩

/-- Quaternion with `glam` xyzw component layout, modelling `bevy_math::Quat`. -/
@[ext]
structure Quat where
  x : ℝ
  y : ℝ
  z : ℝ
  w : ℝ

instance : One Quat := ⟨⟨0, 0, 0, 1⟩⟩

instance : Add Quat := ⟨fun a b => ⟨a.x + b.x, a.y + b.y, a.z + b.z, a.w + b.w⟩⟩

instance : Neg Quat := ⟨fun q => ⟨-q.x, -q.y, -q.z, -q.w⟩⟩

instance : SMul ℝ Quat := ⟨fun c q => ⟨c * q.x, c * q.y, c * q.z, c * q.w⟩⟩

@[simp] theorem Quat.one_x : (1 : Quat).x = 0 := rfl

@[simp] theorem Quat.one_y : (1 : Quat).y = 0 := rfl

@[simp] theorem Quat.one_z : (1 : Quat).z = 0 := rfl

@[simp] theorem Quat.one_w : (1 : Quat).w = 1 := rfl

@[simp] theorem Quat.add_x (a b : Quat) : (a + b).x = a.x + b.x := rfl

@[simp] theorem Quat.add_y (a b : Quat) : (a + b).y = a.y + b.y := rfl

@[simp] theorem Quat.add_z (a b : Quat) : (a + b).z = a.z + b.z := rfl

@[simp] theorem Quat.add_w (a b : Quat) : (a + b).w = a.w + b.w := rfl

@[simp] theorem Quat.neg_x (q : Quat) : (-q).x = -q.x := rfl

@[simp] theorem Quat.neg_y (q : Quat) : (-q).y = -q.y := rfl

@[simp] theorem Quat.neg_z (q : Quat) : (-q).z = -q.z := rfl

@[simp] theorem Quat.neg_w (q : Quat) : (-q).w = -q.w := rfl

@[simp] theorem Quat.smul_x (c : ℝ) (q : Quat) : (c • q).x = c * q.x := rfl

@[simp] theorem Quat.smul_y (c : ℝ) (q : Quat) : (c • q).y = c * q.y := rfl

@[simp] theorem Quat.smul_z (c : ℝ) (q : Quat) : (c • q).z = c * q.z := rfl

@[simp] theorem Quat.smul_w (c : ℝ) (q : Quat) : (c • q).w = c * q.w := rfl

/-- Vector (imaginary) part of a quaternion. -/
def vecQ (q : Quat) : Vec3 := ⟨q.x, q.y, q.z⟩

/-- Quaternion from vector part and scalar part, `Quat::from_xyzw`. -/
def quatOfVecW (v : Vec3) (w : ℝ) : Quat := ⟨v.x, v.y, v.z, w⟩

/-- `Quat::mul_quat` (Hamilton product, glam convention). -/
def qmul (a b : Quat) : Quat :=
  ⟨a.w * b.x + a.x * b.w + a.y * b.z - a.z * b.y,
   a.w * b.y - a.x * b.z + a.y * b.w + a.z * b.x,
   a.w * b.z + a.x * b.y - a.y * b.x + a.z * b.w,
   a.w * b.w - a.x * b.x - a.y * b.y - a.z * b.z⟩

/-- `Quat::dot`. -/
def qdot (a b : Quat) : ℝ := a.x * b.x + a.y * b.y + a.z * b.z + a.w * b.w

/-- `Quat::length_squared`. -/
def normSqQ (q : Quat) : ℝ := qdot q q

/-- `Quat::normalize`. -/
def normalizeQ (q : Quat) : Quat := (1 / Real.sqrt (normSqQ q)) • q

/-- `Quat::mul_vec3` (glam formula: `v*(w²-|b|²) + b*(2 v·b) + (b×v)*(2w)`
with `b` the vector part); for unit quaternions this is the rotation action. -/
def qMulVec3 (q : Quat) (v : Vec3) : Vec3 :=
  (q.w * q.w - dot3 (vecQ q) (vecQ q)) • v
    + (2 * dot3 v (vecQ q)) • vecQ q
    + (2 * q.w) • cross (vecQ q) v

/-- Models `Quat::from_rotation_arc` in exact arithmetic: the float threshold
`1 - 2ε` on the dot product collapses to exact comparison with `±1`.  The
`dot ≤ -1` branch is glam's `from_axis_angle(from.any_orthonormal_vector(), π)`,
which is the pure quaternion on that axis (`cos(π/2) = 0`, `sin(π/2) = 1`). -/
def fromRotationArc (u v : Vec3) : Quat :=
  if 1 ≤ dot3 u v then 1
  else if dot3 u v ≤ -1 then quatOfVecW (anyOrthonormalVector u) 0
  else normalizeQ (quatOfVecW (cross u v) (1 + dot3 u v))

/-- Models `Quat::angle_between`: `2 * acos(|dot|)`. -/
def angleBetween (a b : Quat) : ℝ := 2 * Real.arccos |qdot a b|

/-- Models `Quat::slerp` in exact arithmetic.  glam flips the sign of `end`
when the dot product is negative, then uses the spherical interpolation
formula `(sin(θ(1-s))·self + sin(θs)·end) / sin θ` with `θ = acos(dot)`;
its nearly-parallel shortcut (`dot > 0.9995`, normalized lerp) collapses in
exact arithmetic to the singular case `dot ≥ 1`, where the start rotation is
returned. -/
def slerp (q r : Quat) (s : ℝ) : Quat :=
  if 1 ≤ |qdot q r| then q
  else
    (Real.sin (Real.arccos |qdot q r| * (1 - s)) / Real.sin (Real.arccos |qdot q r|)) • q
      + (Real.sin (Real.arccos |qdot q r| * s) / Real.sin (Real.arccos |qdot q r|)) •
        (if qdot q r < 0 then -r else r)

/-- `bevy_transform::components::Transform` (the fields the plugin touches or
must leave untouched). -/
structure Transform where
  translation : Vec3
  rotation : Quat
  scale : Vec3

/-- `Transform::local_z`: `rotation * Vec3::Z`. -/
def localZT (t : Transform) : Vec3 := qMulVec3 t.rotation ⟨0, 0, 1⟩

/-- `Transform::forward`: the negated local z axis. -/
def forwardT (t : Transform) : Vec3 := -localZT t

/-- `Transform::right`: `rotation * Vec3::X`. -/
def rightT (t : Transform) : Vec3 := qMulVec3 t.rotation ⟨1, 0, 0⟩

/-- `AlignMode` (src/lib.rs lines 49-66): interpolation policy. -/
inductive AlignMode where
  | linear (rate : ℝ)
  | exponential (factor : ℝ)

/-- Per-entity state seen by the two systems: optional `LocalUp`, optional
`OldUp`, optional `AlignMode`, and the `Transform`. -/
structure Avatar where
  localUp : Option Vec3
  oldUp : Option Vec3
  alignMode : Option AlignMode
  transform : Transform

/-- Step 1 of `align_up` (src/lib.rs lines 102-105): if `OldUp` is present,
premultiply the rotation by the arc rotation from the old up to the new up;
otherwise leave the rotation unchanged. -/
def postStep1 (u : Vec3) (oldUp : Option Vec3) (rot : Quat) : Quat :=
  match oldUp with
  | some uo => qmul (fromRotationArc uo u) rot
  | none => rot

/-- The transform after step 1 of `align_up` (only the rotation changes). -/
def step1T (u : Vec3) (oldUp : Option Vec3) (t : Transform) : Transform :=
  { t with rotation := postStep1 u oldUp t.rotation }

/-- The target rotation of `align_up` (src/lib.rs lines 110-112):
`Quat::from_mat3(&Mat3::from_cols(new_right, new_right × forward, local_z))`.

`Quat::from_mat3` is modelled on rotation matrices by its mathematical
meaning: a unit quaternion whose rotation action has the given columns as the
images of the X/Y/Z axes (the representing quaternion is unique up to sign,
and every use in this plugin - `angle_between`, `slerp`, direct assignment of
the orientation - is insensitive to that sign).  It is realized as a
composition of two arc rotations: one taking the Z axis to the third column,
then one taking the image of the X axis to the first column (a half-turn
about the third column in the antipodal case). -/
def fromMat3cols (c1 _c2 c3 : Vec3) : Quat :=
  let q1 := fromRotationArc ⟨0, 0, 1⟩ c3
  let x1 := qMulVec3 q1 ⟨1, 0, 0⟩
  let q2 := if x1 = -c1 then quatOfVecW c3 0 else fromRotationArc x1 c1
  qmul q2 q1

/-- The engine's target rotation for a given post-step-1 transform `t1` and
normalized right vector `newRight`. -/
def targetAfter (newRight : Vec3) (t1 : Transform) : Quat :=
  fromMat3cols newRight (cross newRight (forwardT t1)) (localZT t1)

/-- Step 4 of `align_up` (src/lib.rs lines 113-129): converge the rotation
toward the target according to the interpolation policy. -/
def applyMode (dt : ℝ) (mode : Option AlignMode) (rot target : Quat) : Quat :=
  match mode with
  | none => target
  | some (.linear rate) =>
      let angleToTarget := angleBetween rot target
      if angleToTarget = 0 then target
      else slerp rot target (min angleToTarget (rate * dt) / angleToTarget)
  | some (.exponential factor) => slerp rot target (factor * dt)

/-- Body of the `align_up` loop for one entity (src/lib.rs lines 101-130):
returns the new transform and the value written into `OldUp`. -/
def align_up_entity (dt : ℝ) (u : Vec3) (oldUp : Option Vec3)
    (mode : Option AlignMode) (t : Transform) : Transform × Option Vec3 :=
  let t1 := step1T u oldUp t
  match tryNormalize (cross (forwardT t1) u) with
  | none => (t1, some u)
  | some newRight =>
      ({ t1 with rotation := applyMode dt mode t1.rotation (targetAfter newRight t1) },
       some u)

/-- The `align_up` system for one entity: the query requires `LocalUp`, so
entities without it are untouched. -/
def align_up (dt : ℝ) (a : Avatar) : Avatar :=
  match a.localUp with
  | none => a
  | some u =>
      { a with
        transform := (align_up_entity dt u a.oldUp a.alignMode a.transform).1,
        oldUp := (align_up_entity dt u a.oldUp a.alignMode a.transform).2 }

/-- Body of the `sync_old_up` loop for one entity (src/lib.rs lines 72-82):
the `(None, None)` case is the `unreachable!` assertion, modelled as an
error value. -/
def sync_old_up_entity (localUp oldUp : Option Vec3) : Except Unit (Option Vec3) :=
  match localUp, oldUp with
  | none, none => Except.error ()
  | none, some _ => Except.ok none
  | some u, _ => Except.ok (some u)

/-- The `sync_old_up` system for one entity: the query is
`AnyOf<(&LocalUp, &OldUp)>`, so only entities with at least one of the two
components are visited; the rest are untouched. -/
def sync_old_up (a : Avatar) : Except Unit Avatar :=
  if a.localUp.isSome || a.oldUp.isSome then
    (sync_old_up_entity a.localUp a.oldUp).map fun ou => { a with oldUp := ou }
  else Except.ok a

/-- One tick of the plugin for one entity: `align_up` then `sync_old_up`
(chained in this order in `local_up_plugin`, src/lib.rs line 18). -/
def tick (dt : ℝ) (a : Avatar) : Except Unit Avatar :=
  sync_old_up (align_up dt a)

/-! ### Basic algebra of the embedded primitives -/

theorem dot3_comm (a b : Vec3) : dot3 a b = dot3 b a := by
  simp only [dot3]; ring

theorem one_smulV (v : Vec3) : (1 : ℝ) • v = v := by
  ext <;> simp

theorem qmul_one (q : Quat) : qmul q 1 = q := by
  ext <;> simp [qmul]

theorem one_qmul (q : Quat) : qmul 1 q = q := by
  ext <;> simp [qmul]

theorem normSqQ_one : normSqQ (1 : Quat) = 1 := by
  simp [normSqQ, qdot]

theorem normSqQ_qmul (a b : Quat) : normSqQ (qmul a b) = normSqQ a * normSqQ b := by
  simp only [normSqQ, qdot, qmul]; ring

theorem normSqQ_smul (c : ℝ) (q : Quat) : normSqQ (c • q) = c * c * normSqQ q := by
  simp only [normSqQ, qdot, Quat.smul_x, Quat.smul_y, Quat.smul_z, Quat.smul_w]; ring

theorem normSqQ_quatOfVecW (v : Vec3) (w : ℝ) :
    normSqQ (quatOfVecW v w) = normSqV v + w * w := by
  simp only [normSqQ, qdot, quatOfVecW, normSqV, dot3]

theorem normSqV_smul (c : ℝ) (v : Vec3) : normSqV (c • v) = c * c * normSqV v := by
  simp only [normSqV, dot3, Vec3.vsmul_x, Vec3.vsmul_y, Vec3.vsmul_z]; ring

theorem normSqV_nonneg (v : Vec3) : 0 ≤ normSqV v := by
  simp only [normSqV, dot3]
  nlinarith [mul_self_nonneg v.x, mul_self_nonneg v.y, mul_self_nonneg v.z]

theorem normSqQ_nonneg (q : Quat) : 0 ≤ normSqQ q := by
  simp only [normSqQ, qdot]
  nlinarith [mul_self_nonneg q.x, mul_self_nonneg q.y, mul_self_nonneg q.z,
    mul_self_nonneg q.w]

theorem normSqV_eq_zero {v : Vec3} : normSqV v = 0 ↔ v = 0 := by
  constructor
  · intro h
    simp only [normSqV, dot3] at h
    have hx : v.x = 0 := by
      refine mul_self_eq_zero.mp (le_antisymm ?_ (mul_self_nonneg _))
      nlinarith [mul_self_nonneg v.y, mul_self_nonneg v.z]
    have hy : v.y = 0 := by
      refine mul_self_eq_zero.mp (le_antisymm ?_ (mul_self_nonneg _))
      nlinarith [mul_self_nonneg v.x, mul_self_nonneg v.z]
    have hz : v.z = 0 := by
      refine mul_self_eq_zero.mp (le_antisymm ?_ (mul_self_nonneg _))
      nlinarith [mul_self_nonneg v.x, mul_self_nonneg v.y]
    ext <;> simp [hx, hy, hz]
  · intro h; subst h; simp [normSqV, dot3]

theorem normSqQ_normalizeQ {q : Quat} (h : normSqQ q ≠ 0) : normSqQ (normalizeQ q) = 1 := by
  have h0 : 0 ≤ normSqQ q := normSqQ_nonneg q
  rw [normalizeQ, normSqQ_smul, div_mul_div_comm, one_mul, Real.mul_self_sqrt h0,
    one_div, inv_mul_cancel₀ h]

theorem qMulVec3_one (v : Vec3) : qMulVec3 1 v = v := by
  ext <;> simp [qMulVec3, vecQ, dot3, cross]

theorem qMulVec3_smul (c : ℝ) (q : Quat) (v : Vec3) :
    qMulVec3 (c • q) v = (c * c) • qMulVec3 q v := by
  ext <;> simp only [qMulVec3, vecQ, dot3, cross, Quat.smul_x, Quat.smul_y, Quat.smul_z,
    Quat.smul_w, Vec3.vsmul_x, Vec3.vsmul_y, Vec3.vsmul_z, Vec3.vadd_x, Vec3.vadd_y, Vec3.vadd_z] <;>
    ring

theorem qMulVec3_comp (q p : Quat) (v : Vec3) :
    qMulVec3 (qmul q p) v = qMulVec3 q (qMulVec3 p v) := by
  ext <;> simp only [qMulVec3, vecQ, dot3, cross, qmul, Vec3.vsmul_x, Vec3.vsmul_y, Vec3.vsmul_z,
    Vec3.vadd_x, Vec3.vadd_y, Vec3.vadd_z] <;> ring

theorem dot3_qMulVec3 (q : Quat) (a b : Vec3) :
    dot3 (qMulVec3 q a) (qMulVec3 q b) = normSqQ q * normSqQ q * dot3 a b := by
  simp only [qMulVec3, vecQ, dot3, cross, normSqQ, qdot, Vec3.vsmul_x, Vec3.vsmul_y, Vec3.vsmul_z,
    Vec3.vadd_x, Vec3.vadd_y, Vec3.vadd_z]
  ring

theorem cross_qMulVec3 (q : Quat) (a b : Vec3) :
    cross (qMulVec3 q a) (qMulVec3 q b) = normSqQ q • qMulVec3 q (cross a b) := by
  ext <;> simp only [qMulVec3, vecQ, dot3, cross, normSqQ, qdot, Vec3.vsmul_x, Vec3.vsmul_y,
    Vec3.vsmul_z, Vec3.vadd_x, Vec3.vadd_y, Vec3.vadd_z] <;> ring

theorem qMulVec3_normalizeQ {q : Quat} (h : normSqQ q ≠ 0) (v : Vec3) :
    qMulVec3 (normalizeQ q) v = (1 / normSqQ q) • qMulVec3 q v := by
  rw [normalizeQ, qMulVec3_smul, div_mul_div_comm, one_mul,
    Real.mul_self_sqrt (normSqQ_nonneg q)]

theorem dot3_cross_left (a b : Vec3) : dot3 (cross a b) a = 0 := by
  simp only [dot3, cross]; ring

theorem dot3_cross_right (a b : Vec3) : dot3 (cross a b) b = 0 := by
  simp only [dot3, cross]; ring

theorem vecTriple (a b c : Vec3) :
    cross a (cross b c) = dot3 a c • b + (-dot3 a b) • c := by
  ext <;> simp only [cross, dot3, Vec3.vsmul_x, Vec3.vsmul_y, Vec3.vsmul_z, Vec3.vadd_x,
    Vec3.vadd_y, Vec3.vadd_z] <;> ring

theorem normSqV_cross (a b : Vec3) :
    normSqV (cross a b) = normSqV a * normSqV b - dot3 a b * dot3 a b := by
  simp only [normSqV, dot3, cross]; ring

theorem eq_smul_of_cross_eq_zero {c w : Vec3} (h : cross c w = 0) (hc : normSqV c = 1) :
    w = dot3 c w • c := by
  have h3 := vecTriple c c w
  rw [h, show dot3 c c = 1 from hc] at h3
  have hx := congrArg Vec3.x h3
  have hy := congrArg Vec3.y h3
  have hz := congrArg Vec3.z h3
  simp only [cross, Vec3.zero_x, Vec3.zero_y, Vec3.zero_z, Vec3.vadd_x, Vec3.vadd_y, Vec3.vadd_z,
    Vec3.vsmul_x, Vec3.vsmul_y, Vec3.vsmul_z, mul_zero, zero_mul, sub_zero, zero_sub] at hx hy hz
  ext <;> simp only [Vec3.vsmul_x, Vec3.vsmul_y, Vec3.vsmul_z] <;> linarith

theorem sum3_sq_zero {a b c : ℝ} (h : a * a + b * b + c * c = 0) :
    a = 0 ∧ b = 0 ∧ c = 0 := by
  refine ⟨?_, ?_, ?_⟩ <;>
    refine mul_self_eq_zero.mp (le_antisymm ?_ (mul_self_nonneg _)) <;>
    nlinarith [mul_self_nonneg a, mul_self_nonneg b, mul_self_nonneg c]

theorem sum4_sq_zero {a b c d : ℝ} (h : a * a + b * b + c * c + d * d = 0) :
    a = 0 ∧ b = 0 ∧ c = 0 ∧ d = 0 := by
  refine ⟨?_, ?_, ?_, ?_⟩ <;>
    refine mul_self_eq_zero.mp (le_antisymm ?_ (mul_self_nonneg _)) <;>
    nlinarith [mul_self_nonneg a, mul_self_nonneg b, mul_self_nonneg c, mul_self_nonneg d]

theorem abs_dot3_le {u v : Vec3} (hu : normSqV u = 1) (hv : normSqV v = 1) :
    |dot3 u v| ≤ 1 := by
  simp only [normSqV, dot3] at hu hv
  simp only [dot3]
  rw [abs_le]
  constructor
  · nlinarith [mul_self_nonneg (u.x + v.x), mul_self_nonneg (u.y + v.y),
      mul_self_nonneg (u.z + v.z)]
  · nlinarith [mul_self_nonneg (u.x - v.x), mul_self_nonneg (u.y - v.y),
      mul_self_nonneg (u.z - v.z)]

theorem abs_qdot_le {q r : Quat} (hq : normSqQ q = 1) (hr : normSqQ r = 1) :
    |qdot q r| ≤ 1 := by
  simp only [normSqQ, qdot] at hq hr
  simp only [qdot]
  rw [abs_le]
  constructor
  · nlinarith [mul_self_nonneg (q.x + r.x), mul_self_nonneg (q.y + r.y),
      mul_self_nonneg (q.z + r.z), mul_self_nonneg (q.w + r.w)]
  · nlinarith [mul_self_nonneg (q.x - r.x), mul_self_nonneg (q.y - r.y),
      mul_self_nonneg (q.z - r.z), mul_self_nonneg (q.w - r.w)]

theorem eq_smul_of_abs_dot3_eq_one {u v : Vec3} (hu : normSqV u = 1) (hv : normSqV v = 1)
    (h : |dot3 u v| = 1) : v = dot3 u v • u := by
  have hd : dot3 u v * dot3 u v = 1 := by
    have := abs_mul_abs_self (dot3 u v)
    rw [h, mul_one] at this
    linarith
  have hz : (v.x - dot3 u v * u.x) * (v.x - dot3 u v * u.x)
      + (v.y - dot3 u v * u.y) * (v.y - dot3 u v * u.y)
      + (v.z - dot3 u v * u.z) * (v.z - dot3 u v * u.z) = 0 := by
    simp only [normSqV, dot3] at hu hv hd ⊢
    linear_combination hv + (u.x * v.x + u.y * v.y + u.z * v.z) ^ 2 * hu - hd
  obtain ⟨h1, h2, h3⟩ := sum3_sq_zero hz
  ext <;> simp only [Vec3.vsmul_x, Vec3.vsmul_y, Vec3.vsmul_z] <;> linarith

theorem eq_neg_of_dot3_le_neg_one {u v : Vec3} (hu : normSqV u = 1) (hv : normSqV v = 1)
    (h : dot3 u v ≤ -1) : v = -u := by
  obtain ⟨hl, _⟩ := abs_le.mp (abs_dot3_le hu hv)
  have hd : dot3 u v = -1 := le_antisymm h hl
  have hsm := eq_smul_of_abs_dot3_eq_one hu hv (by rw [hd]; norm_num)
  rw [hd] at hsm
  rw [hsm]
  ext <;> simp

theorem eq_smul_of_abs_qdot_eq_one {q r : Quat} (hq : normSqQ q = 1) (hr : normSqQ r = 1)
    (h : |qdot q r| = 1) : r = qdot q r • q := by
  have hd : qdot q r * qdot q r = 1 := by
    have := abs_mul_abs_self (qdot q r)
    rw [h, mul_one] at this
    linarith
  have hz : (r.x - qdot q r * q.x) * (r.x - qdot q r * q.x)
      + (r.y - qdot q r * q.y) * (r.y - qdot q r * q.y)
      + (r.z - qdot q r * q.z) * (r.z - qdot q r * q.z)
      + (r.w - qdot q r * q.w) * (r.w - qdot q r * q.w) = 0 := by
    simp only [normSqQ, qdot] at hq hr hd ⊢
    linear_combination hr + (q.x * r.x + q.y * r.y + q.z * r.z + q.w * r.w) ^ 2 * hq - hd
  obtain ⟨h1, h2, h3, h4⟩ := sum4_sq_zero hz
  ext <;> simp only [Quat.smul_x, Quat.smul_y, Quat.smul_z, Quat.smul_w] <;> linarith

theorem qdot_eq_one_cases {q r : Quat} (hq : normSqQ q = 1) (hr : normSqQ r = 1)
    (h : |qdot q r| = 1) : r = q ∨ r = -q := by
  have habs := abs_eq (by norm_num : (0:ℝ) ≤ 1) |>.mp h
  have hsm := eq_smul_of_abs_qdot_eq_one hq hr h
  rcases habs with h1 | h1
  · left; rw [hsm, h1]; ext <;> simp
  · right; rw [hsm, h1]; ext <;> simp

/-! ### The arc rotation and the quaternion built from a rotation frame -/

@[simp] theorem vecQ_quatOfVecW (v : Vec3) (w : ℝ) : vecQ (quatOfVecW v w) = v := rfl

@[simp] theorem quatOfVecW_w (v : Vec3) (w : ℝ) : (quatOfVecW v w).w = w := rfl

theorem anyOrthonormalVector_spec {v : Vec3} (hv : normSqV v = 1) :
    dot3 (anyOrthonormalVector v) v = 0 ∧ normSqV (anyOrthonormalVector v) = 1 := by
  have hv' : v.x * v.x + v.y * v.y + v.z * v.z = 1 := hv
  have hs : signum v.z * signum v.z = 1 := by
    rw [signum]; split_ifs <;> norm_num
  have hne : signum v.z + v.z ≠ 0 := by
    rw [signum]; split_ifs with h
    · exact ne_of_lt (by linarith)
    · exact ne_of_gt (by push_neg at h; linarith)
  have ha : (-1 / (signum v.z + v.z)) * (signum v.z + v.z) = -1 := by
    field_simp
  constructor
  · simp only [anyOrthonormalVector, dot3]
    linear_combination (v.y * (-1 / (signum v.z + v.z))) * hv'
      + (v.y * (signum v.z - v.z)) * ha + (-(v.y * (-1 / (signum v.z + v.z)))) * hs
  · simp only [anyOrthonormalVector, normSqV, dot3]
    linear_combination (v.y ^ 2 * (-1 / (signum v.z + v.z)) ^ 2) * hv'
      + (v.y ^ 2 * (-1 / (signum v.z + v.z)) * (signum v.z - v.z) + v.y ^ 2) * ha
      + (1 - v.y ^ 2 * (-1 / (signum v.z + v.z)) ^ 2) * hs

theorem arc_core (u v : Vec3) (hu : normSqV u = 1) (hv : normSqV v = 1) :
    qMulVec3 (quatOfVecW (cross u v) (1 + dot3 u v)) u = (2 + 2 * dot3 u v) • v := by
  have e1 : qMulVec3 (quatOfVecW (cross u v) (1 + dot3 u v)) u
      = ((1 + dot3 u v) * (1 + dot3 u v) - normSqV (cross u v)) • u
        + (2 * dot3 u (cross u v)) • cross u v
        + (2 * (1 + dot3 u v)) • cross (cross u v) u := rfl
  have e2 : dot3 u (cross u v) = 0 := by simp only [dot3, cross]; ring
  have e3 : cross (cross u v) u = normSqV u • v + (-dot3 u v) • u := by
    ext <;> simp only [cross, dot3, normSqV, Vec3.vsmul_x, Vec3.vsmul_y, Vec3.vsmul_z,
      Vec3.vadd_x, Vec3.vadd_y, Vec3.vadd_z] <;> ring
  rw [e1, e2, e3, normSqV_cross, hu, hv]
  ext <;> simp only [Vec3.vsmul_x, Vec3.vsmul_y, Vec3.vsmul_z, Vec3.vadd_x, Vec3.vadd_y,
    Vec3.vadd_z] <;> ring

theorem fromRotationArc_self {u : Vec3} (hu : normSqV u = 1) : fromRotationArc u u = 1 := by
  rw [fromRotationArc, if_pos]
  exact le_of_eq (id hu.symm)

theorem normSqQ_arc_raw_pos {u v : Vec3} (h : ¬dot3 u v ≤ -1) :
    0 < normSqQ (quatOfVecW (cross u v) (1 + dot3 u v)) := by
  rw [normSqQ_quatOfVecW]
  push_neg at h
  nlinarith [normSqV_nonneg (cross u v)]

theorem fromRotationArc_maps {u v : Vec3} (hu : normSqV u = 1) (hv : normSqV v = 1) :
    qMulVec3 (fromRotationArc u v) u = v := by
  rw [fromRotationArc]
  split_ifs with h1 h2
  · -- dot ≥ 1: with unit vectors this forces v = u
    have habs : |dot3 u v| = 1 :=
      le_antisymm (abs_dot3_le hu hv) (le_trans h1 (le_abs_self _))
    have hd1 : dot3 u v = 1 := le_antisymm (le_trans (le_abs_self _) (abs_dot3_le hu hv)) h1
    have := eq_smul_of_abs_dot3_eq_one hu hv habs
    rw [hd1, one_smulV] at this
    rw [qMulVec3_one, this]
  · -- dot ≤ -1: v = -u, and the half turn about an orthonormal axis negates u
    have hvu : v = -u := eq_neg_of_dot3_le_neg_one hu hv h2
    obtain ⟨ho, hn⟩ := anyOrthonormalVector_spec hu
    have : qMulVec3 (quatOfVecW (anyOrthonormalVector u) 0) u
        = (2 * dot3 u (anyOrthonormalVector u)) • anyOrthonormalVector u
          + (-normSqV (anyOrthonormalVector u)) • u := by
      ext <;> simp only [qMulVec3, vecQ_quatOfVecW, quatOfVecW_w, normSqV, dot3, cross,
        Vec3.vsmul_x, Vec3.vsmul_y, Vec3.vsmul_z, Vec3.vadd_x, Vec3.vadd_y, Vec3.vadd_z] <;> ring
    rw [this, dot3_comm u (anyOrthonormalVector u), ho, hn, hvu]
    ext <;> simp
  · -- generic branch
    have hpos := normSqQ_arc_raw_pos h2
    rw [qMulVec3_normalizeQ (ne_of_gt hpos), arc_core u v hu hv]
    rw [normSqQ_quatOfVecW, normSqV_cross, hu, hv]
    have hne : 1 - dot3 u v * dot3 u v + (1 + dot3 u v) * (1 + dot3 u v) ≠ 0 := by
      push_neg at h2
      nlinarith
    ext <;> simp only [Vec3.vsmul_x, Vec3.vsmul_y, Vec3.vsmul_z] <;> field_simp <;> ring

theorem fromRotationArc_unit {u v : Vec3} (hu : normSqV u = 1) (hv : normSqV v = 1) :
    normSqQ (fromRotationArc u v) = 1 := by
  rw [fromRotationArc]
  split_ifs with h1 h2
  · exact normSqQ_one
  · rw [normSqQ_quatOfVecW, (anyOrthonormalVector_spec hu).2]; ring
  · exact normSqQ_normalizeQ (ne_of_gt (normSqQ_arc_raw_pos h2))

theorem qMulVec3_axis (l w : ℝ) (c : Vec3) :
    qMulVec3 (quatOfVecW (l • c) w) c = (w * w + l * l * normSqV c) • c := by
  ext <;> simp only [qMulVec3, vecQ_quatOfVecW, quatOfVecW_w, normSqV, dot3, cross,
    Vec3.vsmul_x, Vec3.vsmul_y, Vec3.vsmul_z, Vec3.vadd_x, Vec3.vadd_y, Vec3.vadd_z] <;> ring

theorem arc_fixes_axis {a b c : Vec3} (ha : normSqV a = 1) (hb : normSqV b = 1)
    (hc : normSqV c = 1) (hac : dot3 a c = 0) (hbc : dot3 b c = 0) (hne : b ≠ -a) :
    qMulVec3 (fromRotationArc a b) c = c := by
  rw [fromRotationArc]
  split_ifs with h1 h2
  · exact qMulVec3_one c
  · exact absurd (eq_neg_of_dot3_le_neg_one ha hb h2) hne
  · -- the axis u × v is parallel to c, so the rotation fixes c
    have hpar : cross c (cross a b) = 0 := by
      rw [vecTriple, dot3_comm c b, hbc, dot3_comm c a, hac]
      ext <;> simp
    have hsm := eq_smul_of_cross_eq_zero hpar hc
    have hpos := normSqQ_arc_raw_pos h2
    rw [qMulVec3_normalizeQ (ne_of_gt hpos)]
    have hraw : quatOfVecW (cross a b) (1 + dot3 a b)
        = quatOfVecW (dot3 c (cross a b) • c) (1 + dot3 a b) := by rw [← hsm]
    rw [hraw] at hpos
    rw [hraw, qMulVec3_axis]
    have hnormeq : normSqQ (quatOfVecW (dot3 c (cross a b) • c) (1 + dot3 a b))
        = (1 + dot3 a b) * (1 + dot3 a b)
          + dot3 c (cross a b) * dot3 c (cross a b) * normSqV c := by
      rw [normSqQ_quatOfVecW, normSqV_smul]; ring
    rw [hnormeq]
    have hT : (1 + dot3 a b) * (1 + dot3 a b)
        + dot3 c (cross a b) * dot3 c (cross a b) * normSqV c ≠ 0 := by
      rw [← hnormeq]; exact ne_of_gt hpos
    ext <;> simp only [Vec3.vsmul_x, Vec3.vsmul_y, Vec3.vsmul_z] <;>
      field_simp

theorem fromMat3cols_spec {c1 c3 : Vec3} (c2 : Vec3) (h1 : normSqV c1 = 1)
    (h3 : normSqV c3 = 1) (h13 : dot3 c1 c3 = 0) (h2 : c2 = cross c3 c1) :
    qMulVec3 (fromMat3cols c1 c2 c3) ⟨1, 0, 0⟩ = c1
    ∧ qMulVec3 (fromMat3cols c1 c2 c3) ⟨0, 1, 0⟩ = c2
    ∧ qMulVec3 (fromMat3cols c1 c2 c3) ⟨0, 0, 1⟩ = c3
    ∧ normSqQ (fromMat3cols c1 c2 c3) = 1 := by
  have hz : normSqV (⟨0, 0, 1⟩ : Vec3) = 1 := by simp [normSqV, dot3]
  have hx : normSqV (⟨1, 0, 0⟩ : Vec3) = 1 := by simp [normSqV, dot3]
  simp only [fromMat3cols]
  set q1 := fromRotationArc ⟨0, 0, 1⟩ c3 with hq1def
  set x1 := qMulVec3 q1 ⟨1, 0, 0⟩ with hx1def
  have hq1u : normSqQ q1 = 1 := fromRotationArc_unit hz h3
  have hq1z : qMulVec3 q1 ⟨0, 0, 1⟩ = c3 := fromRotationArc_maps hz h3
  have hx1u : normSqV x1 = 1 := by
    rw [hx1def]
    show dot3 (qMulVec3 q1 ⟨1, 0, 0⟩) (qMulVec3 q1 ⟨1, 0, 0⟩) = 1
    rw [dot3_qMulVec3, hq1u]
    simp [dot3]
  have hx1c3 : dot3 x1 c3 = 0 := by
    rw [hx1def, ← hq1z, dot3_qMulVec3, hq1u]
    simp [dot3]
  have hmain : ∀ q2 : Quat, qMulVec3 q2 x1 = c1 → qMulVec3 q2 c3 = c3 → normSqQ q2 = 1 →
      qMulVec3 (qmul q2 q1) ⟨1, 0, 0⟩ = c1
      ∧ qMulVec3 (qmul q2 q1) ⟨0, 1, 0⟩ = c2
      ∧ qMulVec3 (qmul q2 q1) ⟨0, 0, 1⟩ = c3
      ∧ normSqQ (qmul q2 q1) = 1 := by
    intro q2 hmx hmz hq2u
    have hcomp : ∀ v : Vec3, qMulVec3 (qmul q2 q1) v = qMulVec3 q2 (qMulVec3 q1 v) :=
      fun v => qMulVec3_comp q2 q1 v
    have hunit : normSqQ (qmul q2 q1) = 1 := by rw [normSqQ_qmul, hq2u, hq1u]; ring
    refine ⟨?_, ?_, ?_, hunit⟩
    · rw [hcomp, ← hx1def, hmx]
    · have hy : (⟨0, 1, 0⟩ : Vec3) = cross ⟨0, 0, 1⟩ ⟨1, 0, 0⟩ := by
        ext <;> simp [cross]
      rw [hy]
      have := cross_qMulVec3 (qmul q2 q1) ⟨0, 0, 1⟩ ⟨1, 0, 0⟩
      rw [hunit, one_smulV] at this
      rw [← this, hcomp, hcomp, hq1z, ← hx1def, hmx, hmz, h2]
    · rw [hcomp, hq1z, hmz]
  by_cases hcase : x1 = -c1
  · rw [if_pos hcase]
    refine hmain (quatOfVecW c3 0) ?_ ?_ ?_
    · have hht : qMulVec3 (quatOfVecW c3 0) x1
          = (2 * dot3 x1 c3) • c3 + (-normSqV c3) • x1 := by
        ext <;> simp only [qMulVec3, vecQ_quatOfVecW, quatOfVecW_w, normSqV, dot3, cross,
          Vec3.vsmul_x, Vec3.vsmul_y, Vec3.vsmul_z, Vec3.vadd_x, Vec3.vadd_y, Vec3.vadd_z] <;> ring
      rw [hht, hx1c3, h3, hcase]
      ext <;> simp <;> ring
    · have hht : qMulVec3 (quatOfVecW c3 0) c3
          = (2 * dot3 c3 c3) • c3 + (-normSqV c3) • c3 := by
        ext <;> simp only [qMulVec3, vecQ_quatOfVecW, quatOfVecW_w, normSqV, dot3, cross,
          Vec3.vsmul_x, Vec3.vsmul_y, Vec3.vsmul_z, Vec3.vadd_x, Vec3.vadd_y, Vec3.vadd_z] <;> ring
      rw [hht, show dot3 c3 c3 = 1 from h3, h3]
      ext <;> simp <;> ring
    · rw [normSqQ_quatOfVecW, h3]; ring
  · rw [if_neg hcase]
    have hne : c1 ≠ -x1 := by
      intro hh
      apply hcase
      rw [hh]
      ext <;> simp
    refine hmain (fromRotationArc x1 c1) (fromRotationArc_maps hx1u h1) ?_
      (fromRotationArc_unit hx1u h1)
    exact arc_fixes_axis hx1u h1 h3 hx1c3 h13 hne

/-! ### Slerp and angle lemmas -/

theorem qdot_comm (a b : Quat) : qdot a b = qdot b a := by
  simp only [qdot]; ring

theorem qdot_combo (a b : ℝ) (p q r : Quat) :
    qdot (a • p + b • q) r = a * qdot p r + b * qdot q r := by
  simp only [qdot, Quat.add_x, Quat.add_y, Quat.add_z, Quat.add_w, Quat.smul_x, Quat.smul_y,
    Quat.smul_z, Quat.smul_w]
  ring

theorem qdot_neg_right (p q : Quat) : qdot p (-q) = -qdot p q := by
  simp only [qdot, Quat.neg_x, Quat.neg_y, Quat.neg_z, Quat.neg_w]; ring

theorem qdot_neg_left (p q : Quat) : qdot (-p) q = -qdot p q := by
  simp only [qdot, Quat.neg_x, Quat.neg_y, Quat.neg_z, Quat.neg_w]; ring

theorem slerp_of_abs_lt {q r : Quat} (h : |qdot q r| < 1) (s : ℝ) :
    slerp q r s
      = (Real.sin (Real.arccos |qdot q r| * (1 - s)) / Real.sin (Real.arccos |qdot q r|)) • q
        + (Real.sin (Real.arccos |qdot q r| * s) / Real.sin (Real.arccos |qdot q r|)) •
          (if qdot q r < 0 then -r else r) := by
  rw [slerp, if_neg (not_le.mpr h)]

theorem sin_arccos_pos {D : ℝ} (hD0 : 0 ≤ D) (hD1 : D < 1) :
    0 < Real.sin (Real.arccos D) := by
  refine Real.sin_pos_of_pos_of_lt_pi (Real.arccos_pos.mpr hD1) ?_
  refine lt_of_le_of_ne (Real.arccos_le_pi D) fun heq => ?_
  have := Real.arccos_eq_pi.mp heq
  linarith

theorem slerp_coeff_left (D s : ℝ) (hD0 : 0 ≤ D) (hD1 : D < 1) :
    Real.sin (Real.arccos D * (1 - s)) / Real.sin (Real.arccos D) * 1
      + Real.sin (Real.arccos D * s) / Real.sin (Real.arccos D) * D
    = Real.cos (Real.arccos D * s) := by
  have hcos : Real.cos (Real.arccos D) = D :=
    Real.cos_arccos (le_trans (by norm_num) hD0) hD1.le
  have hsin : Real.sin (Real.arccos D) ≠ 0 := ne_of_gt (sin_arccos_pos hD0 hD1)
  rw [show Real.arccos D * (1 - s) = Real.arccos D - Real.arccos D * s by ring, Real.sin_sub]
  field_simp
  linear_combination (-Real.sin (Real.arccos D * s)) * hcos

theorem slerp_coeff_right (D s : ℝ) (hD0 : 0 ≤ D) (hD1 : D < 1) :
    Real.sin (Real.arccos D * (1 - s)) / Real.sin (Real.arccos D) * D
      + Real.sin (Real.arccos D * s) / Real.sin (Real.arccos D) * 1
    = Real.cos (Real.arccos D * (1 - s)) := by
  have hcos : Real.cos (Real.arccos D) = D :=
    Real.cos_arccos (le_trans (by norm_num) hD0) hD1.le
  have hsin : Real.sin (Real.arccos D) ≠ 0 := ne_of_gt (sin_arccos_pos hD0 hD1)
  rw [show Real.arccos D * s = Real.arccos D - Real.arccos D * (1 - s) by ring, Real.sin_sub]
  field_simp
  linear_combination (-Real.sin (Real.arccos D * (1 - s))) * hcos

theorem slerp_qdot_left {q r : Quat} (hq : normSqQ q = 1) (h : |qdot q r| < 1) (s : ℝ) :
    qdot q (slerp q r s) = Real.cos (Real.arccos |qdot q r| * s) := by
  have hqq : qdot q q = 1 := hq
  have he : qdot (if qdot q r < 0 then -r else r) q = |qdot q r| := by
    split_ifs with hd
    · rw [qdot_comm, qdot_neg_right, abs_of_neg hd]
    · rw [qdot_comm, abs_of_nonneg (not_lt.mp hd)]
  rw [slerp_of_abs_lt h, qdot_comm, qdot_combo, hqq, he]
  exact slerp_coeff_left |qdot q r| s (abs_nonneg _) h

theorem slerp_qdot_right {q r : Quat} (hr : normSqQ r = 1) (h : |qdot q r| < 1) (s : ℝ) :
    |qdot (slerp q r s) r| = |Real.cos (Real.arccos |qdot q r| * (1 - s))| := by
  have hrr : qdot r r = 1 := hr
  have key : qdot (slerp q r s) r
      = (if qdot q r < 0 then (-1 : ℝ) else 1)
        * Real.cos (Real.arccos |qdot q r| * (1 - s)) := by
    rw [slerp_of_abs_lt h, qdot_combo]
    split_ifs with hd
    · rw [qdot_neg_left, hrr]
      have hd' : qdot q r = -|qdot q r| := by rw [abs_of_neg hd]; ring
      have hcr := slerp_coeff_right |qdot q r| s (abs_nonneg _) h
      linear_combination (Real.sin (Real.arccos |qdot q r| * (1 - s))
        / Real.sin (Real.arccos |qdot q r|)) * hd' - hcr
    · rw [hrr]
      have hd' : qdot q r = |qdot q r| := (abs_of_nonneg (not_lt.mp hd)).symm
      have hcr := slerp_coeff_right |qdot q r| s (abs_nonneg _) h
      linear_combination (Real.sin (Real.arccos |qdot q r| * (1 - s))
        / Real.sin (Real.arccos |qdot q r|)) * hd' + hcr
  rw [key]
  split_ifs <;> simp [abs_mul]

theorem angleBetween_nonneg (q r : Quat) : 0 ≤ angleBetween q r := by
  have := Real.arccos_nonneg |qdot q r|
  rw [angleBetween]; linarith

theorem angleBetween_self {q : Quat} (hq : normSqQ q = 1) : angleBetween q q = 0 := by
  rw [angleBetween, show qdot q q = 1 from hq]
  simp [Real.arccos_one]

theorem angleBetween_eq_zero_iff {q r : Quat} :
    angleBetween q r = 0 ↔ 1 ≤ |qdot q r| := by
  rw [angleBetween, mul_eq_zero]
  constructor
  · rintro (h | h)
    · norm_num at h
    · exact Real.arccos_eq_zero.mp h
  · intro h
    exact Or.inr (Real.arccos_eq_zero.mpr h)

theorem abs_qdot_lt_of_angle_ne {q r : Quat} (hq : normSqQ q = 1) (hr : normSqQ r = 1)
    (h : angleBetween q r ≠ 0) : |qdot q r| < 1 :=
  lt_of_le_of_ne (abs_qdot_le hq hr) fun heq =>
    h (angleBetween_eq_zero_iff.mpr (le_of_eq heq.symm))

theorem angleBetween_slerp_left {q r : Quat} (hq : normSqQ q = 1) (h : |qdot q r| < 1)
    {s : ℝ} (hs0 : 0 ≤ s) (hs1 : s ≤ 1) :
    angleBetween q (slerp q r s) = s * angleBetween q r := by
  rw [angleBetween, angleBetween, slerp_qdot_left hq h s]
  have hθ : 0 ≤ Real.arccos |qdot q r| := Real.arccos_nonneg _
  have hθ2 : Real.arccos |qdot q r| ≤ Real.pi / 2 := Real.arccos_le_pi_div_two.mpr (abs_nonneg _)
  have hval : 0 ≤ Real.arccos |qdot q r| * s := mul_nonneg hθ hs0
  have hval2 : Real.arccos |qdot q r| * s ≤ Real.pi / 2 := by nlinarith
  rw [abs_of_nonneg (Real.cos_nonneg_of_mem_Icc ⟨by linarith, hval2⟩)]
  rw [Real.arccos_cos hval (by linarith [Real.pi_pos])]
  ring

theorem angleBetween_slerp_right {q r : Quat} (hr : normSqQ r = 1) (h : |qdot q r| < 1)
    {s : ℝ} (hs0 : 0 ≤ s) (hs1 : s ≤ 1) :
    angleBetween (slerp q r s) r = (1 - s) * angleBetween q r := by
  rw [angleBetween, angleBetween, slerp_qdot_right hr h s]
  have hθ : 0 ≤ Real.arccos |qdot q r| := Real.arccos_nonneg _
  have hθ2 : Real.arccos |qdot q r| ≤ Real.pi / 2 := Real.arccos_le_pi_div_two.mpr (abs_nonneg _)
  have hval : 0 ≤ Real.arccos |qdot q r| * (1 - s) := mul_nonneg hθ (by linarith)
  have hval2 : Real.arccos |qdot q r| * (1 - s) ≤ Real.pi / 2 := by nlinarith
  rw [abs_of_nonneg (Real.cos_nonneg_of_mem_Icc ⟨by linarith, hval2⟩)]
  rw [Real.arccos_cos hval (by linarith [Real.pi_pos])]
  ring

/-! ### Reductions of the two systems -/

theorem Vec3.eq_zero_iff (v : Vec3) : v = 0 ↔ v.x = 0 ∧ v.y = 0 ∧ v.z = 0 := by
  constructor
  · intro h; rw [h]; exact ⟨rfl, rfl, rfl⟩
  · rintro ⟨h1, h2, h3⟩; ext <;> simp [h1, h2, h3]

theorem dot3_smul_left (c : ℝ) (a b : Vec3) : dot3 (c • a) b = c * dot3 a b := by
  simp only [dot3, Vec3.vsmul_x, Vec3.vsmul_y, Vec3.vsmul_z]; ring

theorem normSqV_neg (v : Vec3) : normSqV (-v) = normSqV v := by
  simp only [normSqV, dot3, Vec3.vneg_x, Vec3.vneg_y, Vec3.vneg_z]; ring

theorem localZT_eq_neg_forwardT (t : Transform) : localZT t = -forwardT t := by
  rw [forwardT]; ext <;> simp

@[simp] theorem step1T_rotation (u : Vec3) (o : Option Vec3) (t : Transform) :
    (step1T u o t).rotation = postStep1 u o t.rotation := rfl

@[simp] theorem step1T_translation (u : Vec3) (o : Option Vec3) (t : Transform) :
    (step1T u o t).translation = t.translation := rfl

@[simp] theorem step1T_scale (u : Vec3) (o : Option Vec3) (t : Transform) :
    (step1T u o t).scale = t.scale := rfl

theorem postStep1_unit {u : Vec3} (oldUp : Option Vec3) {rot : Quat}
    (hu : normSqV u = 1) (hrot : normSqQ rot = 1)
    (hold : ∀ uo, oldUp = some uo → normSqV uo = 1) :
    normSqQ (postStep1 u oldUp rot) = 1 := by
  cases oldUp with
  | none => exact hrot
  | some uo =>
      show normSqQ (qmul (fromRotationArc uo u) rot) = 1
      rw [normSqQ_qmul, fromRotationArc_unit (hold uo rfl) hu, hrot]
      ring

theorem tryNormalize_some_elim {v r : Vec3} (h : tryNormalize v = some r) :
    v ≠ 0 ∧ r = (1 / lengthV v) • v := by
  rw [tryNormalize] at h
  by_cases h0 : v = 0
  · rw [if_pos h0] at h
    exact absurd h (by simp)
  · rw [if_neg h0] at h
    exact ⟨h0, (Option.some_inj.mp h).symm⟩

/-- The geometric facts about the engine's target rotation in a non-degenerate
configuration: it maps the X axis to the normalized right vector (which is
orthogonal to the local up), the Z axis to the post-step-1 local z, the Y axis
to the new up, and it is a unit quaternion. -/
theorem targetAfter_spec {u newRight : Vec3} {t1 : Transform}
    (hu : normSqV u = 1) (h1 : normSqQ t1.rotation = 1)
    (hnr : tryNormalize (cross (forwardT t1) u) = some newRight) :
    qMulVec3 (targetAfter newRight t1) ⟨1, 0, 0⟩ = newRight
    ∧ qMulVec3 (targetAfter newRight t1) ⟨0, 0, 1⟩ = localZT t1
    ∧ qMulVec3 (targetAfter newRight t1) ⟨0, 1, 0⟩ = cross newRight (forwardT t1)
    ∧ normSqQ (targetAfter newRight t1) = 1
    ∧ dot3 newRight u = 0 := by
  obtain ⟨hw0, hreq⟩ := tryNormalize_some_elim hnr
  have hzunit : normSqV (localZT t1) = 1 := by
    show dot3 (qMulVec3 t1.rotation ⟨0, 0, 1⟩) (qMulVec3 t1.rotation ⟨0, 0, 1⟩) = 1
    rw [dot3_qMulVec3, h1]
    simp [dot3]
  have hfunit : normSqV (forwardT t1) = 1 := by
    rw [forwardT, normSqV_neg]
    exact hzunit
  have hwpos : 0 < normSqV (cross (forwardT t1) u) :=
    lt_of_le_of_ne (normSqV_nonneg _) fun heq => hw0 (normSqV_eq_zero.mp heq.symm)
  have hlen : lengthV (cross (forwardT t1) u) * lengthV (cross (forwardT t1) u)
      = normSqV (cross (forwardT t1) u) := Real.mul_self_sqrt (normSqV_nonneg _)
  have hlenne : lengthV (cross (forwardT t1) u) ≠ 0 := fun heq => by
    rw [heq, mul_zero] at hlen
    exact ne_of_gt hwpos hlen.symm
  have hrunit : normSqV newRight = 1 := by
    rw [hreq, normSqV_smul, ← hlen]
    field_simp
  have hru : dot3 newRight u = 0 := by
    rw [hreq, dot3_smul_left, dot3_cross_right, mul_zero]
  have hrf : dot3 newRight (forwardT t1) = 0 := by
    rw [hreq, dot3_smul_left, dot3_cross_left, mul_zero]
  have hrz : dot3 newRight (localZT t1) = 0 := by
    rw [localZT_eq_neg_forwardT]
    simp only [dot3, Vec3.vneg_x, Vec3.vneg_y, Vec3.vneg_z]
    simp only [dot3] at hrf
    linarith
  have hc2 : cross newRight (forwardT t1) = cross (localZT t1) newRight := by
    rw [localZT_eq_neg_forwardT]
    ext <;> simp only [cross, Vec3.vneg_x, Vec3.vneg_y, Vec3.vneg_z] <;> ring
  obtain ⟨m1, m2, m3, m4⟩ := fromMat3cols_spec (cross newRight (forwardT t1)) hrunit hzunit
    hrz hc2
  exact ⟨m1, m3, m2, m4, hru⟩

theorem align_up_none {dt : ℝ} {a : Avatar} (h : a.localUp = none) : align_up dt a = a := by
  simp only [align_up, h]

theorem align_up_entity_reduce_none {dt : ℝ} {u : Vec3} {oldUp : Option Vec3}
    {mode : Option AlignMode} {t : Transform}
    (hnr : tryNormalize (cross (forwardT (step1T u oldUp t)) u) = none) :
    align_up_entity dt u oldUp mode t = (step1T u oldUp t, some u) := by
  simp only [align_up_entity, hnr]

theorem align_up_entity_reduce_some {dt : ℝ} {u newRight : Vec3} {oldUp : Option Vec3}
    {mode : Option AlignMode} {t : Transform}
    (hnr : tryNormalize (cross (forwardT (step1T u oldUp t)) u) = some newRight) :
    align_up_entity dt u oldUp mode t
      = ({ step1T u oldUp t with
            rotation := applyMode dt mode (postStep1 u oldUp t.rotation)
              (targetAfter newRight (step1T u oldUp t)) }, some u) := by
  simp only [align_up_entity, hnr, step1T_rotation]

theorem align_up_reduce_some (dt : ℝ) {a : Avatar} {u newRight : Vec3}
    (hlu : a.localUp = some u)
    (hnr : tryNormalize (cross (forwardT (step1T u a.oldUp a.transform)) u) = some newRight) :
    (align_up dt a).transform.rotation
      = applyMode dt a.alignMode (postStep1 u a.oldUp a.transform.rotation)
          (targetAfter newRight (step1T u a.oldUp a.transform))
    ∧ (align_up dt a).oldUp = some u := by
  constructor <;> simp only [align_up, hlu, align_up_entity_reduce_some hnr]

theorem align_up_reduce_none (dt : ℝ) {a : Avatar} {u : Vec3}
    (hlu : a.localUp = some u)
    (hnr : tryNormalize (cross (forwardT (step1T u a.oldUp a.transform)) u) = none) :
    (align_up dt a).transform.rotation = postStep1 u a.oldUp a.transform.rotation
    ∧ (align_up dt a).oldUp = some u := by
  constructor <;> simp only [align_up, hlu, align_up_entity_reduce_none hnr, step1T_rotation]

theorem align_up_fields (dt : ℝ) (a : Avatar) :
    (align_up dt a).transform.translation = a.transform.translation
    ∧ (align_up dt a).transform.scale = a.transform.scale
    ∧ (align_up dt a).localUp = a.localUp
    ∧ (align_up dt a).alignMode = a.alignMode := by
  cases hlu : a.localUp with
  | none =>
      rw [align_up_none hlu]
      exact ⟨rfl, rfl, hlu, rfl⟩
  | some u =>
      cases hnr : tryNormalize (cross (forwardT (step1T u a.oldUp a.transform)) u) with
      | none =>
          simp [align_up, hlu, align_up_entity_reduce_none hnr]
      | some newRight =>
          simp [align_up, hlu, align_up_entity_reduce_some hnr]

theorem sync_old_up_some_localUp {a : Avatar} {u : Vec3} (h : a.localUp = some u) :
    sync_old_up a = Except.ok { a with oldUp := some u } := by
  rw [sync_old_up, h]
  cases a.oldUp <;> rfl

theorem sync_old_up_none_some {a : Avatar} {uo : Vec3} (h1 : a.localUp = none)
    (h2 : a.oldUp = some uo) :
    sync_old_up a = Except.ok { a with oldUp := none } := by
  rw [sync_old_up, h1, h2]
  rfl

theorem sync_old_up_none_none {a : Avatar} (h1 : a.localUp = none) (h2 : a.oldUp = none) :
    sync_old_up a = Except.ok a := by
  rw [sync_old_up, h1, h2]
  rfl

/-! ### Concrete entities used to instantiate theorems with hypotheses -/

/-- An entity at the identity orientation whose local up points along `+Y`,
with no delayed-up yet and the given interpolation policy. -/
def avatarWith (mode : Option AlignMode) : Avatar :=
  { localUp := some ⟨0, 1, 0⟩, oldUp := none, alignMode := mode,
    transform := { translation := ⟨0, 0, 0⟩, rotation := 1, scale := ⟨1, 1, 1⟩ } }

/-- An entity with no local up and no delayed up: both systems leave it alone. -/
def avatarIdle : Avatar :=
  { localUp := none, oldUp := none, alignMode := none,
    transform := { translation := ⟨0, 0, 0⟩, rotation := 1, scale := ⟨1, 1, 1⟩ } }

/-- An entity at the identity orientation looking along its local up `-Z`
(degenerate geometry), with no delayed-up. -/
def avatarDown : Avatar :=
  { localUp := some ⟨0, 0, -1⟩, oldUp := none, alignMode := none,
    transform := { translation := ⟨0, 0, 0⟩, rotation := 1, scale := ⟨1, 1, 1⟩ } }

theorem avatarWith_tryNormalize (mode : Option AlignMode) :
    tryNormalize (cross (forwardT (step1T ⟨0, 1, 0⟩ (avatarWith mode).oldUp
      (avatarWith mode).transform)) ⟨0, 1, 0⟩) = some ⟨1, 0, 0⟩ := by
  have h1 : cross (forwardT (step1T ⟨0, 1, 0⟩ (avatarWith mode).oldUp
      (avatarWith mode).transform)) ⟨0, 1, 0⟩ = ⟨1, 0, 0⟩ := by
    show cross (forwardT (step1T ⟨0, 1, 0⟩ none
      { translation := ⟨0, 0, 0⟩, rotation := 1, scale := ⟨1, 1, 1⟩ })) ⟨0, 1, 0⟩ = ⟨1, 0, 0⟩
    ext <;> simp [step1T, postStep1, forwardT, localZT, qMulVec3, vecQ, dot3, cross] <;>
      norm_num
  rw [h1, tryNormalize, if_neg]
  · have hlen : lengthV (⟨1, 0, 0⟩ : Vec3) = 1 := by
      rw [lengthV, show normSqV (⟨1, 0, 0⟩ : Vec3) = 1 by norm_num [normSqV, dot3],
        Real.sqrt_one]
    rw [hlen]
    norm_num [one_smulV]
  · rw [Vec3.eq_zero_iff]
    norm_num

theorem avatarDown_degenerate :
    cross (forwardT (step1T ⟨0, 0, -1⟩ avatarDown.oldUp avatarDown.transform)) ⟨0, 0, -1⟩
      = 0 := by
  show cross (forwardT (step1T ⟨0, 0, -1⟩ none
    { translation := ⟨0, 0, 0⟩, rotation := 1, scale := ⟨1, 1, 1⟩ })) ⟨0, 0, -1⟩ = 0
  ext <;> simp [step1T, postStep1, forwardT, localZT, qMulVec3, vecQ, dot3, cross] <;>
    norm_num

/-! ### The claims -/

/-- Claim C5: for every entity, after the alignment engine and then the
tracker have run in a tick, the delayed-up value equals the tick's local-up
value as an optional value: present if and only if local-up was present,
holding its current value.  This single-tick characterization yields the
stated lifecycle: the tick at which local-up appears creates delayed-up with
the current value, and the tick at which local-up disappears removes it, not
before. -/
theorem C5_tracker_lifecycle (dt : ℝ) (a : Avatar) :
    ∃ a', tick dt a = Except.ok a' ∧ a'.oldUp = a.localUp := by
  rw [tick]
  cases hlu : a.localUp with
  | none =>
      rw [align_up_none hlu]
      cases hou : a.oldUp with
      | none => exact ⟨a, sync_old_up_none_none hlu hou, hou⟩
      | some uo => exact ⟨{ a with oldUp := none }, sync_old_up_none_some hlu hou, rfl⟩
  | some u =>
      have hb : (align_up dt a).localUp = some u := by
        rw [(align_up_fields dt a).2.2.1, hlu]
      exact ⟨{ align_up dt a with oldUp := some u }, sync_old_up_some_localUp hb, rfl⟩

/-- Claim C7: for every entity the tracker visits, if local-up is absent and
delayed-up is present then delayed-up is removed, and if local-up is present
then delayed-up is set to local-up's current value unconditionally (including
when an equal value is already present). -/
theorem C7_tracker_rules (lu ou : Option Vec3) :
    (lu = none → ou.isSome → sync_old_up_entity lu ou = Except.ok none)
    ∧ ∀ u, lu = some u → sync_old_up_entity lu ou = Except.ok (some u) := by
  constructor
  · rintro rfl h
    cases ou with
    | none => simp at h
    | some uo => rfl
  · rintro u rfl
    cases ou <;> rfl

theorem C7_witness :
    sync_old_up_entity none (some ⟨0, 0, 1⟩) = Except.ok none
    ∧ sync_old_up_entity (some ⟨1, 0, 0⟩) (some ⟨1, 0, 0⟩)
        = Except.ok (some ⟨1, 0, 0⟩) :=
  ⟨(C7_tracker_rules none (some ⟨0, 0, 1⟩)).1 rfl (by simp),
   (C7_tracker_rules (some ⟨1, 0, 0⟩) (some ⟨1, 0, 0⟩)).2 ⟨1, 0, 0⟩ rfl⟩

/-- Claim C8: the tracker's fatal-assertion branch (local-up and delayed-up
both absent) is unreachable for every entity the tracker visits, because the
`AnyOf` query only yields entities with at least one of the two components;
consequently the tracker system never returns the assertion error. -/
theorem C8_assertion_unreachable :
    (∀ lu ou : Option Vec3, lu.isSome ∨ ou.isSome →
        ∃ r, sync_old_up_entity lu ou = Except.ok r)
    ∧ ∀ a : Avatar, ∃ a', sync_old_up a = Except.ok a' := by
  constructor
  · rintro lu ou h
    cases lu with
    | some u => exact ⟨some u, by cases ou <;> rfl⟩
    | none =>
        cases ou with
        | some uo => exact ⟨none, rfl⟩
        | none => simp at h
  · intro a
    cases hlu : a.localUp with
    | some u => exact ⟨_, sync_old_up_some_localUp hlu⟩
    | none =>
        cases hou : a.oldUp with
        | none => exact ⟨a, sync_old_up_none_none hlu hou⟩
        | some uo => exact ⟨_, sync_old_up_none_some hlu hou⟩

theorem C8_witness :
    ∃ r, sync_old_up_entity (some ⟨0, 1, 0⟩) none = Except.ok r :=
  C8_assertion_unreachable.1 (some ⟨0, 1, 0⟩) none (Or.inl (by simp))

/-- Claim C10: in every tick, the engine and the tracker modify only the
entity's rotation and its delayed-up attribute; the transform's translation
and scale (and the local-up and policy components) are left exactly
unchanged. -/
theorem C10_frame_effect (dt : ℝ) (a a' : Avatar) (h : tick dt a = Except.ok a') :
    a'.transform.translation = a.transform.translation
    ∧ a'.transform.scale = a.transform.scale
    ∧ a'.localUp = a.localUp
    ∧ a'.alignMode = a.alignMode := by
  obtain ⟨hT, hS, hL, hM⟩ := align_up_fields dt a
  rw [tick] at h
  cases hlu : (align_up dt a).localUp with
  | none =>
      cases hou : (align_up dt a).oldUp with
      | none =>
          rw [sync_old_up_none_none hlu hou] at h
          have := Except.ok.inj h
          rw [← this, hT, hS, hL, hM]
          exact ⟨rfl, rfl, rfl, rfl⟩
      | some uo =>
          rw [sync_old_up_none_some hlu hou] at h
          have := Except.ok.inj h
          rw [← this]
          exact ⟨hT, hS, hL, hM⟩
  | some u =>
      rw [sync_old_up_some_localUp hlu] at h
      have := Except.ok.inj h
      rw [← this]
      exact ⟨hT, hS, hL, hM⟩

theorem C10_witness :
    avatarIdle.transform.translation = avatarIdle.transform.translation
    ∧ avatarIdle.transform.scale = avatarIdle.transform.scale
    ∧ avatarIdle.localUp = avatarIdle.localUp
    ∧ avatarIdle.alignMode = avatarIdle.alignMode :=
  C10_frame_effect 1 avatarIdle avatarIdle
    (by rw [tick, align_up_none rfl, sync_old_up_none_none rfl rfl])

/-- Claim C6: for every entity whose post-step-1 forward direction is parallel
or antiparallel to its local-up (zero cross product, so `try_normalize`
fails), the engine skips steps 3 and 4: the orientation is exactly the
step-1 result, the current local-up is still written into delayed-up, and the
tick completes without any error. -/
theorem C6_degenerate_skip (dt : ℝ) (a : Avatar) (u : Vec3)
    (hlu : a.localUp = some u)
    (hdeg : cross (forwardT (step1T u a.oldUp a.transform)) u = 0) :
    (align_up dt a).transform.rotation = postStep1 u a.oldUp a.transform.rotation
    ∧ (align_up dt a).oldUp = some u
    ∧ ∃ a', tick dt a = Except.ok a' := by
  have htn : tryNormalize (cross (forwardT (step1T u a.oldUp a.transform)) u) = none := by
    rw [hdeg, tryNormalize, if_pos rfl]
  obtain ⟨h1, h2⟩ := align_up_reduce_none dt hlu htn
  refine ⟨h1, h2, ?_⟩
  have hb : (align_up dt a).localUp = some u := by
    rw [(align_up_fields dt a).2.2.1, hlu]
  exact ⟨_, by rw [tick]; exact sync_old_up_some_localUp hb⟩

theorem C6_witness :
    (align_up 1 avatarDown).transform.rotation
        = postStep1 ⟨0, 0, -1⟩ avatarDown.oldUp avatarDown.transform.rotation
    ∧ (align_up 1 avatarDown).oldUp = some ⟨0, 0, -1⟩
    ∧ ∃ a', tick 1 avatarDown = Except.ok a' :=
  C6_degenerate_skip 1 avatarDown ⟨0, 0, -1⟩ rfl avatarDown_degenerate

/-- The entity of the C9 counterexample: identity orientation (forward is
exactly `-Z`, equal to its local up), but with a delayed-up value `+Z`
opposite to the current local-up, so step 1 applies a half turn. -/
def avatarFlip : Avatar :=
  { localUp := some ⟨0, 0, -1⟩, oldUp := some ⟨0, 0, 1⟩, alignMode := none,
    transform := { translation := ⟨0, 0, 0⟩, rotation := 1, scale := ⟨1, 1, 1⟩ } }

/-- Claim C9, counterexample: an entity whose forward vector is exactly equal
to its local-up vector, for which one tick of the alignment engine changes
the orientation (and not merely by a quaternion sign flip): the claim as
stated omits the step-1 attitude-preservation rotation, which fires whenever
a delayed-up different from the current local-up is present. -/
theorem C9_counterexample :
    forwardT avatarFlip.transform = ⟨0, 0, -1⟩
    ∧ avatarFlip.localUp = some ⟨0, 0, -1⟩
    ∧ (align_up 1 avatarFlip).transform.rotation ≠ avatarFlip.transform.rotation
    ∧ (align_up 1 avatarFlip).transform.rotation ≠ -avatarFlip.transform.rotation := by
  have hfwd : forwardT avatarFlip.transform = ⟨0, 0, -1⟩ := by
    ext <;> simp [avatarFlip, forwardT, localZT, qMulVec3, vecQ, dot3, cross] <;> norm_num
  have hstep : postStep1 ⟨0, 0, -1⟩ avatarFlip.oldUp avatarFlip.transform.rotation
      = ⟨0, 1, 0, 0⟩ := by
    show qmul (fromRotationArc ⟨0, 0, 1⟩ ⟨0, 0, -1⟩) 1 = ⟨0, 1, 0, 0⟩
    have harc : fromRotationArc ⟨0, 0, 1⟩ ⟨0, 0, -1⟩ = ⟨0, 1, 0, 0⟩ := by
      rw [fromRotationArc, if_neg (by norm_num [dot3]), if_pos (by norm_num [dot3])]
      ext <;> simp [quatOfVecW, anyOrthonormalVector, signum] <;> norm_num
    rw [harc]
    ext <;> simp [qmul]
  have hdeg : cross (forwardT (step1T ⟨0, 0, -1⟩ avatarFlip.oldUp avatarFlip.transform))
      ⟨0, 0, -1⟩ = 0 := by
    have : forwardT (step1T ⟨0, 0, -1⟩ avatarFlip.oldUp avatarFlip.transform)
        = ⟨0, 0, 1⟩ := by
      rw [forwardT, localZT, step1T_rotation, hstep]
      ext <;> simp [qMulVec3, vecQ, dot3, cross] <;> norm_num
    rw [this]
    ext <;> simp [cross] <;> norm_num
  have htn : tryNormalize (cross (forwardT (step1T ⟨0, 0, -1⟩ avatarFlip.oldUp
      avatarFlip.transform)) ⟨0, 0, -1⟩) = none := by
    rw [hdeg, tryNormalize, if_pos rfl]
  obtain ⟨h1, _⟩ := align_up_reduce_none 1 (show avatarFlip.localUp = some ⟨0, 0, -1⟩ from rfl) htn
  rw [h1, hstep]
  refine ⟨hfwd, rfl, ?_, ?_⟩
  · intro h
    have := congrArg Quat.y h
    simp [avatarFlip] at this
  · intro h
    have := congrArg Quat.y h
    simp [avatarFlip] at this

/-- Claim C9, amended: if additionally the delayed-up is absent or equal to
the current local-up (so that step 1 is the identity), then an entity whose
forward vector is exactly equal to its local-up vector or its negation keeps
its orientation exactly unchanged through one engine pass, and the tick
completes without failure. -/
theorem C9_amended (dt : ℝ) (a : Avatar) (u : Vec3)
    (hu : normSqV u = 1) (hlu : a.localUp = some u)
    (hold : a.oldUp = none ∨ a.oldUp = some u)
    (hf : forwardT a.transform = u ∨ forwardT a.transform = -u) :
    (align_up dt a).transform.rotation = a.transform.rotation
    ∧ ∃ a', tick dt a = Except.ok a' := by
  have hstep : postStep1 u a.oldUp a.transform.rotation = a.transform.rotation := by
    rcases hold with h | h <;> rw [h]
    · rfl
    · show qmul (fromRotationArc u u) a.transform.rotation = a.transform.rotation
      rw [fromRotationArc_self hu, one_qmul]
  have hsame : step1T u a.oldUp a.transform = a.transform := by
    rw [step1T, hstep]
  have hdeg : cross (forwardT (step1T u a.oldUp a.transform)) u = 0 := by
    rw [hsame]
    rcases hf with h | h <;> rw [h] <;> ext <;> simp [cross] <;> ring
  have htn : tryNormalize (cross (forwardT (step1T u a.oldUp a.transform)) u) = none := by
    rw [hdeg, tryNormalize, if_pos rfl]
  obtain ⟨h1, _⟩ := align_up_reduce_none dt hlu htn
  refine ⟨by rw [h1, hstep], ?_⟩
  have hb : (align_up dt a).localUp = some u := by
    rw [(align_up_fields dt a).2.2.1, hlu]
  exact ⟨_, by rw [tick]; exact sync_old_up_some_localUp hb⟩

theorem C9_amended_witness :
    (align_up 1 avatarDown).transform.rotation = avatarDown.transform.rotation
    ∧ ∃ a', tick 1 avatarDown = Except.ok a' :=
  C9_amended 1 avatarDown ⟨0, 0, -1⟩ (by norm_num [normSqV, dot3]) rfl (Or.inl rfl)
    (Or.inl (by ext <;> simp [avatarDown, forwardT, localZT, qMulVec3, vecQ, dot3, cross] <;>
      norm_num))

/-- Claim C1: for every entity processed by the alignment engine that has both
a delayed-up value `uo` and a current local-up value `u`, the orientation
after step 1 equals the arc rotation composed on the left with the prior
orientation (`arc * rot`); the arc rotation maps `uo` onto `u` (it is the
minimal arc between them) and equals the identity when `uo = u`; when
delayed-up is absent, step 1 leaves the prior orientation unchanged. -/
theorem C1_step1_arc_composition (u uo : Vec3) (rot : Quat)
    (hu : normSqV u = 1) (huo : normSqV uo = 1) :
    postStep1 u (some uo) rot = qmul (fromRotationArc uo u) rot
    ∧ qMulVec3 (fromRotationArc uo u) uo = u
    ∧ (uo = u → fromRotationArc uo u = 1)
    ∧ postStep1 u none rot = rot := by
  refine ⟨rfl, fromRotationArc_maps huo hu, ?_, rfl⟩
  intro h
  subst h
  exact fromRotationArc_self huo

theorem C1_witness :
    postStep1 ⟨0, 0, 1⟩ (some ⟨1, 0, 0⟩) 1 = qmul (fromRotationArc ⟨1, 0, 0⟩ ⟨0, 0, 1⟩) 1
    ∧ qMulVec3 (fromRotationArc ⟨1, 0, 0⟩ ⟨0, 0, 1⟩) ⟨1, 0, 0⟩ = ⟨0, 0, 1⟩
    ∧ ((⟨1, 0, 0⟩ : Vec3) = ⟨0, 0, 1⟩ → fromRotationArc ⟨1, 0, 0⟩ ⟨0, 0, 1⟩ = 1)
    ∧ postStep1 ⟨0, 0, 1⟩ none 1 = 1 :=
  C1_step1_arc_composition ⟨0, 0, 1⟩ ⟨1, 0, 0⟩ 1 (by norm_num [normSqV, dot3])
    (by norm_num [normSqV, dot3])

/-- Claim C2: with no interpolation policy and non-degenerate geometry, one
engine pass sets the orientation exactly to the target rotation, whose right
vector is perpendicular to the local up and whose forward direction equals
the post-step-1 forward direction unchanged. -/
theorem C2_snap_exact (dt : ℝ) (a : Avatar) (u newRight : Vec3)
    (hu : normSqV u = 1) (hrot : normSqQ a.transform.rotation = 1)
    (hold : ∀ uo, a.oldUp = some uo → normSqV uo = 1)
    (hlu : a.localUp = some u) (hmode : a.alignMode = none)
    (hnr : tryNormalize (cross (forwardT (step1T u a.oldUp a.transform)) u) = some newRight) :
    (align_up dt a).transform.rotation = targetAfter newRight (step1T u a.oldUp a.transform)
    ∧ dot3 (rightT (align_up dt a).transform) u = 0
    ∧ forwardT ((align_up dt a).transform) = forwardT (step1T u a.oldUp a.transform) := by
  have h1 : normSqQ (step1T u a.oldUp a.transform).rotation = 1 := by
    rw [step1T_rotation]
    exact postStep1_unit a.oldUp hu hrot hold
  obtain ⟨m1, m2, m3, m4, m5⟩ := targetAfter_spec hu h1 hnr
  obtain ⟨hrotEq, _⟩ := align_up_reduce_some dt hlu hnr
  rw [hmode] at hrotEq
  simp only [applyMode] at hrotEq
  refine ⟨hrotEq, ?_, ?_⟩
  · rw [rightT, hrotEq, m1]
    exact m5
  · simp only [forwardT, localZT]
    rw [hrotEq]
    have := m2
    rw [localZT] at this
    rw [this]

theorem C2_witness :
    (align_up 1 (avatarWith none)).transform.rotation
        = targetAfter ⟨1, 0, 0⟩ (step1T ⟨0, 1, 0⟩ (avatarWith none).oldUp
            (avatarWith none).transform)
    ∧ dot3 (rightT (align_up 1 (avatarWith none)).transform) ⟨0, 1, 0⟩ = 0
    ∧ forwardT ((align_up 1 (avatarWith none)).transform)
        = forwardT (step1T ⟨0, 1, 0⟩ (avatarWith none).oldUp (avatarWith none).transform) :=
  C2_snap_exact 1 (avatarWith none) ⟨0, 1, 0⟩ ⟨1, 0, 0⟩ (by norm_num [normSqV, dot3])
    normSqQ_one (fun uo h => Option.noConfusion h) rfl rfl (avatarWith_tryNormalize none)

/-- The Linear policy evaluation: the angular step from the current
orientation is at most `rate * dt`, the angle to target does not increase,
and at zero angle to target the result is the target (which then represents
the same rotation as the current orientation, up to quaternion sign). -/
theorem linear_policy_bounds {r1 T : Quat} (rate dt : ℝ) (hdt : 0 ≤ dt) (hrate : 0 ≤ rate)
    (hr1 : normSqQ r1 = 1) (hT : normSqQ T = 1) :
    angleBetween r1 (applyMode dt (some (AlignMode.linear rate)) r1 T) ≤ rate * dt
    ∧ angleBetween (applyMode dt (some (AlignMode.linear rate)) r1 T) T ≤ angleBetween r1 T
    ∧ (angleBetween r1 T = 0 →
        applyMode dt (some (AlignMode.linear rate)) r1 T = T ∧ (r1 = T ∨ r1 = -T)) := by
  simp only [applyMode]
  by_cases hA : angleBetween r1 T = 0
  · simp only [if_pos hA]
    have habs : |qdot r1 T| = 1 :=
      le_antisymm (abs_qdot_le hr1 hT) (angleBetween_eq_zero_iff.mp hA)
    refine ⟨?_, ?_, fun _ => ⟨trivial, ?_⟩⟩
    · rw [hA]
      exact mul_nonneg hrate hdt
    · rw [angleBetween_self hT, hA]
    · rcases qdot_eq_one_cases hr1 hT habs with h | h
      · exact Or.inl h.symm
      · refine Or.inr ?_
        rw [h]
        ext <;> simp
  · simp only [if_neg hA]
    have hA0 : 0 ≤ angleBetween r1 T := angleBetween_nonneg r1 T
    have hApos : 0 < angleBetween r1 T := lt_of_le_of_ne hA0 (Ne.symm hA)
    have habslt : |qdot r1 T| < 1 := abs_qdot_lt_of_angle_ne hr1 hT hA
    have hmin0 : 0 ≤ min (angleBetween r1 T) (rate * dt) :=
      le_min hA0 (mul_nonneg hrate hdt)
    have hs0 : 0 ≤ min (angleBetween r1 T) (rate * dt) / angleBetween r1 T :=
      div_nonneg hmin0 hA0
    have hs1 : min (angleBetween r1 T) (rate * dt) / angleBetween r1 T ≤ 1 := by
      rw [div_le_one hApos]
      exact min_le_left _ _
    have hsA : min (angleBetween r1 T) (rate * dt) / angleBetween r1 T * angleBetween r1 T
        = min (angleBetween r1 T) (rate * dt) := by
      field_simp
    refine ⟨?_, ?_, fun h0 => absurd h0 hA⟩
    · rw [angleBetween_slerp_left hr1 habslt hs0 hs1, hsA]
      exact min_le_right _ _
    · rw [angleBetween_slerp_right hT habslt hs0 hs1]
      nlinarith

/-- Claim C3: for an entity with the `Linear { rate }` policy and
non-degenerate geometry, the angle between the post-step-1 orientation and
the final orientation never exceeds `rate * dt`, the post-tick angle to the
target never exceeds the pre-tick angle to the target, and when the pre-tick
angle to the target is zero the orientation is set to the target, which
represents the same rotation as the post-step-1 orientation (equal up to
quaternion sign). -/
theorem C3_linear_bounds (dt rate : ℝ) (a : Avatar) (u newRight : Vec3)
    (hdt : 0 ≤ dt) (hrate : 0 ≤ rate)
    (hu : normSqV u = 1) (hrot : normSqQ a.transform.rotation = 1)
    (hold : ∀ uo, a.oldUp = some uo → normSqV uo = 1)
    (hlu : a.localUp = some u)
    (hmode : a.alignMode = some (AlignMode.linear rate))
    (hnr : tryNormalize (cross (forwardT (step1T u a.oldUp a.transform)) u) = some newRight) :
    angleBetween (postStep1 u a.oldUp a.transform.rotation)
        ((align_up dt a).transform.rotation) ≤ rate * dt
    ∧ angleBetween ((align_up dt a).transform.rotation)
          (targetAfter newRight (step1T u a.oldUp a.transform))
        ≤ angleBetween (postStep1 u a.oldUp a.transform.rotation)
            (targetAfter newRight (step1T u a.oldUp a.transform))
    ∧ (angleBetween (postStep1 u a.oldUp a.transform.rotation)
          (targetAfter newRight (step1T u a.oldUp a.transform)) = 0 →
        (align_up dt a).transform.rotation
            = targetAfter newRight (step1T u a.oldUp a.transform)
        ∧ (postStep1 u a.oldUp a.transform.rotation
              = targetAfter newRight (step1T u a.oldUp a.transform)
            ∨ postStep1 u a.oldUp a.transform.rotation
              = -targetAfter newRight (step1T u a.oldUp a.transform))) := by
  have hr1 : normSqQ (postStep1 u a.oldUp a.transform.rotation) = 1 :=
    postStep1_unit a.oldUp hu hrot hold
  have h1 : normSqQ (step1T u a.oldUp a.transform).rotation = 1 := hr1
  obtain ⟨m1, m2, m3, m4, m5⟩ := targetAfter_spec hu h1 hnr
  obtain ⟨hrotEq, _⟩ := align_up_reduce_some dt hlu hnr
  rw [hmode] at hrotEq
  obtain ⟨b1, b2, b3⟩ := linear_policy_bounds rate dt hdt hrate hr1 m4
  rw [hrotEq]
  exact ⟨b1, b2, fun h0 => (b3 h0).imp id fun h => h⟩

theorem C3_witness :
    angleBetween (postStep1 ⟨0, 1, 0⟩ (avatarWith (some (AlignMode.linear 1))).oldUp
        (avatarWith (some (AlignMode.linear 1))).transform.rotation)
        ((align_up 1 (avatarWith (some (AlignMode.linear 1)))).transform.rotation) ≤ 1 * 1
    ∧ angleBetween ((align_up 1 (avatarWith (some (AlignMode.linear 1)))).transform.rotation)
          (targetAfter ⟨1, 0, 0⟩ (step1T ⟨0, 1, 0⟩
            (avatarWith (some (AlignMode.linear 1))).oldUp
            (avatarWith (some (AlignMode.linear 1))).transform))
        ≤ angleBetween (postStep1 ⟨0, 1, 0⟩
            (avatarWith (some (AlignMode.linear 1))).oldUp
            (avatarWith (some (AlignMode.linear 1))).transform.rotation)
            (targetAfter ⟨1, 0, 0⟩ (step1T ⟨0, 1, 0⟩
              (avatarWith (some (AlignMode.linear 1))).oldUp
              (avatarWith (some (AlignMode.linear 1))).transform))
    ∧ (angleBetween (postStep1 ⟨0, 1, 0⟩
          (avatarWith (some (AlignMode.linear 1))).oldUp
          (avatarWith (some (AlignMode.linear 1))).transform.rotation)
          (targetAfter ⟨1, 0, 0⟩ (step1T ⟨0, 1, 0⟩
            (avatarWith (some (AlignMode.linear 1))).oldUp
            (avatarWith (some (AlignMode.linear 1))).transform)) = 0 →
        (align_up 1 (avatarWith (some (AlignMode.linear 1)))).transform.rotation
            = targetAfter ⟨1, 0, 0⟩ (step1T ⟨0, 1, 0⟩
              (avatarWith (some (AlignMode.linear 1))).oldUp
              (avatarWith (some (AlignMode.linear 1))).transform)
        ∧ (postStep1 ⟨0, 1, 0⟩ (avatarWith (some (AlignMode.linear 1))).oldUp
              (avatarWith (some (AlignMode.linear 1))).transform.rotation
              = targetAfter ⟨1, 0, 0⟩ (step1T ⟨0, 1, 0⟩
                (avatarWith (some (AlignMode.linear 1))).oldUp
                (avatarWith (some (AlignMode.linear 1))).transform)
            ∨ postStep1 ⟨0, 1, 0⟩ (avatarWith (some (AlignMode.linear 1))).oldUp
                (avatarWith (some (AlignMode.linear 1))).transform.rotation
              = -targetAfter ⟨1, 0, 0⟩ (step1T ⟨0, 1, 0⟩
                  (avatarWith (some (AlignMode.linear 1))).oldUp
                  (avatarWith (some (AlignMode.linear 1))).transform))) :=
  C3_linear_bounds 1 1 (avatarWith (some (AlignMode.linear 1))) ⟨0, 1, 0⟩ ⟨1, 0, 0⟩
    (by norm_num) (by norm_num) (by norm_num [normSqV, dot3]) normSqQ_one
    (fun uo h => Option.noConfusion h) rfl rfl
    (avatarWith_tryNormalize (some (AlignMode.linear 1)))

/-- Claim C4: for an entity with the `Exponential { factor }` policy and
non-degenerate geometry, the new orientation equals the spherical
interpolation from the post-step-1 orientation toward the target by the
unclamped fraction `factor * dt`.  The closed conjuncts exhibit the
overshoot this permits once the fraction reaches 1: interpolating by
fraction 2 from the identity toward a quarter-turn (angle `π/2` away) lands
at a half-turn, angle `π` away - past the target. -/
theorem C4_exponential_slerp :
    (∀ (dt factor : ℝ) (a : Avatar) (u newRight : Vec3),
        a.localUp = some u →
        a.alignMode = some (AlignMode.exponential factor) →
        tryNormalize (cross (forwardT (step1T u a.oldUp a.transform)) u) = some newRight →
        (align_up dt a).transform.rotation
          = slerp (postStep1 u a.oldUp a.transform.rotation)
              (targetAfter newRight (step1T u a.oldUp a.transform)) (factor * dt))
    ∧ slerp 1 ⟨0, 0, Real.sqrt 2 / 2, Real.sqrt 2 / 2⟩ 2 = ⟨0, 0, 1, 0⟩
    ∧ angleBetween 1 ⟨0, 0, Real.sqrt 2 / 2, Real.sqrt 2 / 2⟩ = Real.pi / 2
    ∧ angleBetween 1 (slerp 1 ⟨0, 0, Real.sqrt 2 / 2, Real.sqrt 2 / 2⟩ 2) = Real.pi := by
  have hs2pos : 0 < Real.sqrt 2 := Real.sqrt_pos.mpr (by norm_num)
  have hs2sq : Real.sqrt 2 * Real.sqrt 2 = 2 := Real.mul_self_sqrt (by norm_num)
  have hs2lt : Real.sqrt 2 < 2 := by nlinarith
  have hdot : qdot 1 ⟨0, 0, Real.sqrt 2 / 2, Real.sqrt 2 / 2⟩ = Real.sqrt 2 / 2 := by
    simp [qdot]
  have habs : |qdot 1 ⟨0, 0, Real.sqrt 2 / 2, Real.sqrt 2 / 2⟩| = Real.sqrt 2 / 2 := by
    rw [hdot]
    exact abs_of_nonneg (by positivity)
  have harc : Real.arccos (Real.sqrt 2 / 2) = Real.pi / 4 := by
    rw [← Real.cos_pi_div_four]
    exact Real.arccos_cos (by positivity) (by linarith [Real.pi_pos])
  have hsin4 : Real.sin (Real.pi / 4) = Real.sqrt 2 / 2 := Real.sin_pi_div_four
  have hres : slerp 1 ⟨0, 0, Real.sqrt 2 / 2, Real.sqrt 2 / 2⟩ 2 = ⟨0, 0, 1, 0⟩ := by
    rw [slerp, if_neg (by rw [habs]; intro hle; nlinarith), habs, harc, hdot,
      if_neg (not_lt.mpr (by positivity))]
    have e1 : Real.sin (Real.pi / 4 * (1 - 2)) / Real.sin (Real.pi / 4) = -1 := by
      rw [show Real.pi / 4 * (1 - 2) = -(Real.pi / 4) by ring, Real.sin_neg, hsin4]
      field_simp
      ring
    have e2 : Real.sin (Real.pi / 4 * 2) / Real.sin (Real.pi / 4) = 2 / Real.sqrt 2 := by
      rw [show Real.pi / 4 * 2 = Real.pi / 2 by ring, Real.sin_pi_div_two, hsin4, one_div_div]
    rw [e1, e2]
    ext <;> simp <;> field_simp <;> ring
  refine ⟨?_, hres, ?_, ?_⟩
  · intro dt factor a u newRight hlu hmode hnr
    obtain ⟨hrotEq, _⟩ := align_up_reduce_some dt hlu hnr
    rw [hmode] at hrotEq
    simp only [applyMode] at hrotEq
    exact hrotEq
  · rw [angleBetween, habs, harc]
    ring
  · rw [hres, angleBetween, show qdot 1 ⟨0, 0, 1, 0⟩ = 0 by simp [qdot], abs_zero,
      Real.arccos_zero]
    ring

theorem C4_witness :
    (align_up 2 (avatarWith (some (AlignMode.exponential 3)))).transform.rotation
      = slerp (postStep1 ⟨0, 1, 0⟩ (avatarWith (some (AlignMode.exponential 3))).oldUp
          (avatarWith (some (AlignMode.exponential 3))).transform.rotation)
          (targetAfter ⟨1, 0, 0⟩ (step1T ⟨0, 1, 0⟩
            (avatarWith (some (AlignMode.exponential 3))).oldUp
            (avatarWith (some (AlignMode.exponential 3))).transform)) (3 * 2) :=
  C4_exponential_slerp.1 2 3 (avatarWith (some (AlignMode.exponential 3))) ⟨0, 1, 0⟩
    ⟨1, 0, 0⟩ rfl rfl (avatarWith_tryNormalize (some (AlignMode.exponential 3)))

end BevyUpward
